import Mathlib

/-!
Shallow embedding of the ledger-replay engine and valuation helpers of
`src/xalpha/trade.py` (class `trade` with `_addrow`/`_arrange`, and the
module-level functions `bottleneck` and `turnoverrate`), together with the
parts of the repository that the engine calls but that are not shipped under
`src/`: the lot-registry module `xalpha.remain` and the helpers of
`xalpha.cons`, which are modelled from the specification, as is the external
instrument collaborator (price/quote provider).

Numbers are exact rationals (`ℚ`); dates are day numbers (`ℕ`).
-/

namespace Xalpha

/-- Python's built-in `int()` applied to a number: truncation toward zero. -/
def pyint (q : ℚ) : ℤ := if 0 ≤ q then ⌊q⌋ else ⌈q⌉

/-- Python's built-in `round` to the nearest integer, ties going to the even
neighbour (banker's rounding), on exact rationals. -/
def roundHalfEven (q : ℚ) : ℤ :=
  if q - ⌊q⌋ < 1 / 2 then ⌊q⌋
  else if 1 / 2 < q - ⌊q⌋ then ⌊q⌋ + 1
  else if ⌊q⌋ % 2 = 0 then ⌊q⌋ else ⌊q⌋ + 1

/-- Python's built-in `round(q, n)`: round to `n` decimal places, ties to even. -/
def pyround (q : ℚ) (n : ℕ) : ℚ := (roundHalfEven (q * 10 ^ n) : ℚ) / 10 ^ n

/-- Modelled from the spec: `xalpha.cons.myround` is called by `trade.py` but the
`cons` module is not under `src/`.  The spec's valuation formulas (§4.3) and the
corporate-action rules (§4.2 item 7) state plain arithmetic with no rounding
applied, so the helper is modelled as the identity on exact rationals. -/
def myround (q : ℚ) : ℚ := q

/-- A lot registry: ordered list of outstanding purchase lots
`(acquisitionDate, shares)`, oldest first (spec §3 LotRegistrySnapshot). -/
abbrev Registry := List (ℕ × ℚ)

/-- Total outstanding shares held in a registry (sum of the lot shares). -/
def totalShares : Registry → ℚ
  | [] => 0
  | l :: rest => l.2 + totalShares rest

namespace rm

/-- Modelled from the spec: `xalpha.remain.buy` is not under `src/`.
Spec §4.1: `buy(registry, shares, date)` appends a new lot `(date, shares)`. -/
def buy (r : Registry) (share : ℚ) (date : ℕ) : Registry := r ++ [(date, share)]

/-- Modelled from the spec: FIFO consumption core of `xalpha.remain.sell`
(spec §4.1): remove `amt` units starting from the oldest lot, splitting a lot
if the requested amount falls mid-lot; returns `(consumedLots, remaining)`. -/
def sellFIFO : Registry → ℚ → Registry × Registry
  | [], _ => ([], [])
  | l :: rest, amt =>
    if amt ≤ 0 then ([], l :: rest)
    else if l.2 ≤ amt then
      ((l :: (sellFIFO rest (amt - l.2)).1), (sellFIFO rest (amt - l.2)).2)
    else ([(l.1, amt)], (l.1, l.2 - amt) :: rest)

/-- Modelled from the spec: `xalpha.remain.sell` is not under `src/`.
Spec §4.1: fails with `InsufficientShares` (here `none`) if the requested
amount exceeds the registry's total, otherwise consumes FIFO. -/
def sell (r : Registry) (share : ℚ) (_date : ℕ) : Option (Registry × Registry) :=
  if totalShares r < share then none else some (sellFIFO r share)

/-- Modelled from the spec: `xalpha.remain.trans` is not under `src/`.
Spec §4.1 `split`: scales every lot's shares by `ratio`, dates unchanged. -/
def trans (r : Registry) (ratio : ℚ) (_date : ℕ) : Registry :=
  r.map (fun l => (l.1, l.2 * ratio))

/-- Modelled from the spec: `xalpha.remain.copy` is not under `src/`.
Spec §4.1 `passthrough`: identity copy of the registry. -/
def copy (r : Registry) : Registry := r

end rm

/-- Modelled from the spec: the instrument price/quote collaborator (`self.aim`
in `trade.py`) is external to the repository core (spec §6).  `shengou` is
`quoteBuy`, `shuhui` is `quoteRedeem` (both return `(settleDate, cash,
shares)`), `specialdate` is the corporate-action calendar, `zhesuandate` the
lock dates, `comment` the corporate-action value recorded in the price table
for a date (`none` models a non-float comment), and `netvalue` is `priceAt`
(spec §6 declares it total). -/
structure Instrument where
  shengou : ℚ → ℕ → ℕ × ℚ × ℚ
  shuhui : ℚ → ℕ → Registry → ℕ × ℚ × ℚ
  specialdate : List ℕ
  zhesuandate : List ℕ
  comment : ℕ → Option ℚ
  netvalue : ℕ → ℚ

/-- The status instruction table restricted to one holding: rows `(date, value)`. -/
abbrev Status := List (ℕ × ℚ)

/-- `self.status[self.status['date'] == date].iloc[0].loc[code]`: the value of
the first status row carrying the given date (`0` if there is none; the engine
only reads it for dates present in the table). -/
def statusValue : Status → ℕ → ℚ
  | [], _ => 0
  | r :: rest, d => if r.1 = d then r.2 else statusValue rest d

/-- The first status row with a nonzero instruction value (lines 149-155 of
`trade.py`: the emptiness test of `status[status[code] != 0]` together with
the index scan past leading zero rows). -/
def firstNonzero : Status → Option (ℕ × ℚ)
  | [] => none
  | r :: rest => if r.2 ≠ 0 then some r else firstNonzero rest

/-- The date carries a nonzero instruction: `date in recorddate` together with
`status[status.date == date].any() != 0` in `_addrow`'s scanning loop. -/
def hasInstr (st : Status) (d : ℕ) : Prop := ∃ r ∈ st, r.1 = d ∧ r.2 ≠ 0

instance (st : Status) (d : ℕ) : Decidable (hasInstr st d) :=
  List.decidableBEx _ st

/-- One ledger row `(date, cash, share)` (cftable) and one snapshot row
`(date, registry)` (remtable); the replay state is the pair of tables. -/
structure TdState where
  cftable : List (ℕ × ℚ × ℚ)
  remtable : List (ℕ × Registry)
deriving DecidableEq, Repr

/-- Total of the `share` column of a cftable (`sum(cftable.loc[:, 'share'])`). -/
def sumShare : List (ℕ × ℚ × ℚ) → ℚ
  | [] => 0
  | r :: rest => r.2.2 + sumShare rest

/-- Total of the `cash` column of a cftable. -/
def sumCash : List (ℕ × ℚ × ℚ) → ℚ
  | [] => 0
  | r :: rest => r.2.1 + sumCash rest

/-- Registry attached to the last snapshot row (`self.remtable.iloc[-1].rem`). -/
def lastRem (s : TdState) : Registry := ((s.remtable.getLast?).map Prod.snd).getD []

/-- Result of decoding one raw instruction value: the reinvestment label and
the (possibly re-rounded) value, `trade.py` lines 181-185. -/
structure Decoded where
  label : ℕ
  value : ℚ
deriving DecidableEq, Repr

/-- `fenhongmark = round(10 * value - int(10 * value), 1)`; if it equals `0.5`
the day is a dividend-reinvestment day (`label = 1`) and the value is
re-rounded to one decimal, `trade.py` lines 182-185. -/
def decode (v : ℚ) : Decoded :=
  if pyround (10 * v - (pyint (10 * v) : ℚ)) 1 = 1 / 2 then ⟨1, pyround v 1⟩
  else ⟨0, v⟩

/-- The scanning loop of `_addrow` (lines 164-171): starting at day `d`, skip
forward over days that are neither corporate-action days nor days with a
nonzero instruction; raise end-of-input (`none`) as soon as the day about to be
examined lies beyond yesterday.  `gas` is `yesterday - d`, which makes the
recursion structural while matching the Python loop exactly. -/
def nextDateAux (aim : Instrument) (st : Status) : ℕ → ℕ → Option ℕ
  | 0, d => if d ∈ aim.specialdate ∨ hasInstr st d then some d else none
  | g + 1, d =>
    if d ∈ aim.specialdate ∨ hasInstr st d then some d
    else nextDateAux aim st g (d + 1)

/-- Find the next date to process, starting the scan at `d`. -/
def nextDate (aim : Instrument) (st : Status) (yesterday d : ℕ) : Option ℕ :=
  nextDateAux aim st (yesterday - d) d

/-- Result of the ordinary buy/sell block of `_addrow`. -/
inductive TradeRes
  | ok (rdate : ℕ) (dcash dshare : ℚ) (rem : Registry) (label : ℕ)
  | err (msg : String)
deriving DecidableEq, Repr

/-- The ordinary buy/sell block of `_addrow` (lines 179-204): honoured only
when the day carries an instruction and is not a lock date; dispatches on the
decoded value (`> 0` purchase, `< -0.005` share-count redemption,
`[-0.005, 0)` ratio redemption, `0` no-op). -/
def tradePart (aim : Instrument) (st : Status) (cft : List (ℕ × ℚ × ℚ))
    (rem0 : Registry) (date : ℕ) : TradeRes :=
  if (∃ r ∈ st, r.1 = date) ∧ date ∉ aim.zhesuandate then
    let dec := decode (statusValue st date)
    if 0 < dec.value then
      let q := aim.shengou dec.value date
      .ok q.1 q.2.1 q.2.2 (rm.buy rem0 q.2.2 q.1) dec.label
    else if dec.value < -(0.005 : ℚ) then
      let q := aim.shuhui (-dec.value) date rem0
      match rm.sell rem0 (-q.2.2) q.1 with
      | some p => .ok q.1 q.2.1 q.2.2 p.2 dec.label
      | none => .err "insufficient shares"
    else if -(0.005 : ℚ) ≤ dec.value ∧ dec.value < 0 then
      let q := aim.shuhui (sumShare cft * (-dec.value / (0.005 : ℚ))) date rem0
      match rm.sell rem0 (-q.2.2) q.1 with
      | some p => .ok q.1 q.2.1 q.2.2 p.2 dec.label
      | none => .err "insufficient shares"
    else .ok date 0 0 rem0 dec.label
  else .ok date 0 0 rem0 0

/-- Result of the corporate-action block of `_addrow`. -/
inductive DivRes
  | ok (dcash2 dshare2 : ℚ) (rem : Registry)
  | err (msg : String)
deriving DecidableEq, Repr

/-- The corporate-action block of `_addrow` (lines 205-226): on a special date,
a negative comment is a split (scale lots, credit the share increment), a
positive comment is a per-share dividend paid in cash (`label = 0`) or
reinvested into a new lot (`label = 1`); a non-float comment (`none`) raises
`comments not recoginized`, and a float comment matching no branch (zero)
leaves `dcash2`/`dshare2` unbound in Python, which also aborts. -/
def divPart (aim : Instrument) (cft : List (ℕ × ℚ × ℚ)) (rem : Registry)
    (label : ℕ) (date : ℕ) : DivRes :=
  if date ∈ aim.specialdate then
    match aim.comment date with
    | some c =>
      if c < 0 then
        .ok 0 ((rem.map (fun l => myround (l.2 * (-c - 1)))).sum)
          (rm.trans rem (-c) date)
      else if 0 < c ∧ label = 0 then
        .ok (myround (sumShare cft * c)) 0 (rm.copy rem)
      else if 0 < c ∧ label = 1 then
        .ok 0 (myround (sumShare cft * (c / aim.netvalue date)))
          (rm.buy rem (myround (sumShare cft * (c / aim.netvalue date))) date)
      else .err "local variable dcash2 referenced before assignment"
    | none => .err "comments not recoginized"
  else .ok 0 0 rem

/-- Result of one `_addrow` call: a new state, the normal end-of-input signal,
or a fatal error. -/
inductive AddRes
  | ok (s : TdState)
  | endOfInput
  | fatal (msg : String)
deriving DecidableEq, Repr

/-- `trade._addrow`: append one row to the cashflow table and one to the
snapshot table, or raise.  Empty ledger (lines 148-160): find the first nonzero
instruction, buy if positive, fatal error if negative.  Non-empty ledger
(lines 161-230): scan for the next actionable date, run the buy/sell block and
the corporate-action block, then append `(rdate, cash, share)` and
`(rdate, rem)`. -/
def addrow (aim : Instrument) (st : Status) (yesterday : ℕ) (s : TdState) : AddRes :=
  match s.cftable.getLast? with
  | none =>
    match firstNonzero st with
    | none => .endOfInput
    | some r =>
      if 0 < r.2 then
        let q := aim.shengou r.2 r.1
        .ok ⟨s.cftable ++ [(q.1, q.2.1, q.2.2)],
             s.remtable ++ [(q.1, rm.buy [] q.2.2 q.1)]⟩
      else .fatal "You cannot sell first when you never buy"
  | some last =>
    match nextDate aim st yesterday (last.1 + 1) with
    | none => .endOfInput
    | some date =>
      match tradePart aim st s.cftable (lastRem s) date with
      | .err m => .fatal m
      | .ok rdate dcash dshare rem1 label =>
        match divPart aim s.cftable rem1 label date with
        | .err m => .fatal m
        | .ok dcash2 dshare2 rem2 =>
          .ok ⟨s.cftable ++ [(rdate, dcash + dcash2, dshare + dshare2)],
               s.remtable ++ [(rdate, rem2)]⟩

/-- Result of a whole replay. -/
inductive RunRes
  | ok (s : TdState)
  | err (msg : String)
deriving DecidableEq, Repr

/-- `trade._arrange`: call `_addrow` until it signals end of input (normal
termination) or raises a fatal error (propagated).  `fuel` bounds the number of
steps; the Python loop needs no bound because `_addrow` always terminates the
scan at yesterday. -/
def arrange (aim : Instrument) (st : Status) (yesterday : ℕ) :
    ℕ → TdState → RunRes
  | 0, s => .ok s
  | n + 1, s =>
    match addrow aim st yesterday s with
    | .ok s' => arrange aim st yesterday n s'
    | .endOfInput => .ok s
    | .fatal m => .err m

/-- Python's built-in `max` over a list (the value is only used on non-empty
lists, matching `max(inputl)` in `trade.bottleneck`). -/
def pymax : List ℚ → ℚ
  | [] => 0
  | [a] => a
  | a :: rest => max a (pymax rest)

/-- `trade.bottleneck` (lines 38-48): the maximum over `i = 1 .. len` of the
negated sum of the first `i` cash entries; `0` for an empty table. -/
def bottleneck (cft : List (ℕ × ℚ × ℚ)) : ℚ :=
  if cft = [] then 0
  else
    myround (pymax ((List.range cft.length).map
      (fun i => -(sumCash (cft.take (i + 1))))))

/-- Total of the absolute values of the `cash` column
(`sum(abs(cftable.loc[:, 'cash']))`). -/
def sumAbsCash : List (ℕ × ℚ × ℚ) → ℚ
  | [] => 0
  | r :: rest => |r.2.1| + sumAbsCash rest

/-- `trade.turnoverrate` (lines 51-66): `0` for an empty table; otherwise
`sum(|cash|) / bottleneck / 2`, annualized by `* 365 / elapsedDays`, with `0`
returned when the elapsed days are non-positive.  Python divides by
`bottleneck` *before* the elapsed-days check, so a zero bottleneck raises
`ZeroDivisionError` there; that failure is modelled as `none`. -/
def turnoverrate (cft : List (ℕ × ℚ × ℚ)) (endd : ℕ) : Option ℚ :=
  if cft = [] then some 0
  else
    let start := (cft.headD (0, 0, 0)).1
    if bottleneck cft = 0 then none
    else
      let turnover := sumAbsCash cft / bottleneck cft / 2
      if (endd : ℤ) - (start : ℤ) ≤ 0 then some 0
      else some (turnover * 365 / (((endd : ℤ) - (start : ℤ) : ℤ) : ℚ))

/-- `cftable[cftable['date'] <= date]`: the ledger truncated at a date. -/
def partBefore : List (ℕ × ℚ × ℚ) → ℕ → List (ℕ × ℚ × ℚ)
  | [], _ => []
  | r :: rest, d => if r.1 ≤ d then r :: partBefore rest d else partBefore rest d

/-- Sum of the negative entries of the `cash` column
(`sum(row.cash for row if row.cash < 0)`). -/
def sumNegCash : List (ℕ × ℚ × ℚ) → ℚ
  | [] => 0
  | r :: rest => if r.2.1 < 0 then r.2.1 + sumNegCash rest else sumNegCash rest

/-- Sum of the positive entries of the `cash` column
(`sum(row.cash for row if row.cash > 0)`). -/
def sumPosCash : List (ℕ × ℚ × ℚ) → ℚ
  | [] => 0
  | r :: rest => if 0 < r.2.1 then r.2.1 + sumPosCash rest else sumPosCash rest

/-- The fields of `trade.briefdailyreport`'s result dict. -/
structure BriefReport where
  date : ℕ
  unitvalue : ℚ
  currentshare : ℚ
  currentvalue : ℚ
deriving DecidableEq, Repr

/-- `trade.briefdailyreport` (lines 281-298): truncate the cftable at `date`;
empty truncation returns the empty dict (`none`); otherwise report the net
value, current share balance and current value. -/
def briefdailyreport (aim : Instrument) (cft : List (ℕ × ℚ × ℚ)) (date : ℕ) :
    Option BriefReport :=
  let part := partBefore cft date
  if part = [] then none
  else
    let unitvalue := aim.netvalue date
    let currentshare := myround (sumShare part)
    some ⟨date, unitvalue, currentshare, myround (currentshare * unitvalue)⟩

/-- The numeric fields of `trade.dailyreport`'s result that both branches of
the Python code populate: net value, held shares, current value, total
contributed, maximum occupation (bottleneck), total returned, total gain. -/
structure Report where
  netvalue : ℚ
  currentshare : ℚ
  currentvalue : ℚ
  totinput : ℚ
  btnk : ℚ
  totoutput : ℚ
  ereturn : ℚ
deriving DecidableEq, Repr

/-- `trade.dailyreport` (lines 240-279), restricted to the fields above:
truncate the cftable at `date`; if the truncation is empty, every position
field is `0`; otherwise contributed is the negated sum of negative cash rows,
returned the sum of positive cash rows, and gain is
`currentvalue + returned - contributed`. -/
def dailyreport (aim : Instrument) (cft : List (ℕ × ℚ × ℚ)) (date : ℕ) : Report :=
  let part := partBefore cft date
  let value := aim.netvalue date
  if part = [] then ⟨value, 0, 0, 0, 0, 0, 0⟩
  else
    let totinput := myround (-(sumNegCash part))
    let totoutput := myround (sumPosCash part)
    let currentshare := myround (sumShare part)
    let currentcash := myround (currentshare * value)
    let btnk := bottleneck part
    let ereturn := myround (currentcash + totoutput - totinput)
    ⟨value, currentshare, currentcash, totinput, btnk, totoutput, ereturn⟩

end Xalpha

namespace Xalpha

/-! ### Helper lemmas -/

theorem roundHalfEven_nonpos {q : ℚ} (h : q ≤ 0) : roundHalfEven q ≤ 0 := by
  have hf : ⌊q⌋ ≤ 0 := by
    have h0 := Int.floor_le_floor h
    simpa using h0
  unfold roundHalfEven
  split_ifs with h1 h2 h3
  · exact hf
  · have hlt : (⌊q⌋ : ℚ) < -(1 / 2) := by
      have := Int.floor_le q
      linarith
    have hq0 : (⌊q⌋ : ℚ) < 0 := by linarith
    have : ⌊q⌋ < 0 := by exact_mod_cast hq0
    omega
  · exact hf
  · have heq : q - ⌊q⌋ = 1 / 2 := le_antisymm (not_lt.mp h2) (not_lt.mp h1)
    have hq0 : (⌊q⌋ : ℚ) < 0 := by linarith
    have : ⌊q⌋ < 0 := by exact_mod_cast hq0
    omega

theorem pyround_one_nonpos {q : ℚ} (h : q ≤ 0) : pyround q 1 ≤ 0 := by
  unfold pyround
  have h10 : q * 10 ^ 1 ≤ 0 := by nlinarith
  have hr := roundHalfEven_nonpos h10
  have hc : ((roundHalfEven (q * 10 ^ 1) : ℤ) : ℚ) ≤ 0 := by exact_mod_cast hr
  have hp : (0 : ℚ) < 10 ^ 1 := by norm_num
  exact div_nonpos_of_nonpos_of_nonneg hc (le_of_lt hp)

/-- A negative raw instruction value is never mistaken for a reinvestment
marker: its decode is `label 0` with the value unchanged. -/
theorem decode_neg {v : ℚ} (h : v < 0) : decode v = ⟨0, v⟩ := by
  unfold decode
  rw [if_neg]
  intro hmark
  have h10 : 10 * v < 0 := by linarith
  have hpy : pyint (10 * v) = ⌈10 * v⌉ := by
    unfold pyint
    rw [if_neg]
    linarith
  have harg : 10 * v - (pyint (10 * v) : ℚ) ≤ 0 := by
    rw [hpy]
    have := Int.le_ceil (10 * v)
    linarith
  have := pyround_one_nonpos harg
  rw [hmark] at this
  norm_num at this

/-- An integral instruction value is never mistaken for a reinvestment marker. -/
theorem decode_eq_of_int (v : ℚ) (n : ℤ) (hv : v = (n : ℚ)) : decode v = ⟨0, v⟩ := by
  subst hv
  unfold decode
  rw [if_neg]
  have h10 : (10 : ℚ) * (n : ℚ) = ((10 * n : ℤ) : ℚ) := by push_cast; ring
  have hpy : pyint (10 * (n : ℚ)) = 10 * n := by
    unfold pyint
    rw [h10]
    split_ifs with h
    · exact Int.floor_intCast _
    · exact Int.ceil_intCast _
  rw [hpy, h10]
  intro hmark
  rw [sub_self] at hmark
  unfold pyround roundHalfEven at hmark
  norm_num at hmark

theorem totalShares_nonneg {r : Registry} (h : ∀ l ∈ r, 0 < l.2) : 0 ≤ totalShares r := by
  induction r with
  | nil => simp [totalShares]
  | cons l rest ih =>
    have h1 : 0 < l.2 := h l (by simp)
    have h2 : 0 ≤ totalShares rest := ih (fun x hx => h x (by simp [hx]))
    simp only [totalShares]
    linarith

/-- Selling the exact total of a registry of positive lots consumes every lot
and leaves the registry empty. -/
theorem sellFIFO_total {r : Registry} (h : ∀ l ∈ r, 0 < l.2) :
    rm.sellFIFO r (totalShares r) = (r, []) := by
  induction r with
  | nil => simp [rm.sellFIFO, totalShares]
  | cons l rest ih =>
    have hl : 0 < l.2 := h l (by simp)
    have hrest : ∀ x ∈ rest, 0 < x.2 := fun x hx => h x (by simp [hx])
    have htr : 0 ≤ totalShares rest := totalShares_nonneg hrest
    have htot : totalShares (l :: rest) = l.2 + totalShares rest := rfl
    rw [htot]
    unfold rm.sellFIFO
    rw [if_neg (by linarith), if_pos (by linarith)]
    have harg : l.2 + totalShares rest - l.2 = totalShares rest := by ring
    rw [harg, ih hrest]

/-- The scan never selects a date before its starting point. -/
theorem nextDateAux_ge (aim : Instrument) (st : Status) :
    ∀ gas d r, nextDateAux aim st gas d = some r → d ≤ r := by
  intro gas
  induction gas with
  | zero =>
    intro d r h
    unfold nextDateAux at h
    split at h
    · cases h; exact le_refl _
    · cases h
  | succ g ih =>
    intro d r h
    unfold nextDateAux at h
    split at h
    · cases h; exact le_refl _
    · exact le_trans (Nat.le_succ d) (ih (d + 1) r h)

/-- Every date the scan selects carries a corporate action or a nonzero
instruction. -/
theorem nextDateAux_stop (aim : Instrument) (st : Status) :
    ∀ gas d r, nextDateAux aim st gas d = some r →
      r ∈ aim.specialdate ∨ hasInstr st r := by
  intro gas
  induction gas with
  | zero =>
    intro d r h
    unfold nextDateAux at h
    split at h
    · cases h; assumption
    · cases h
  | succ g ih =>
    intro d r h
    unfold nextDateAux at h
    split at h
    · cases h; assumption
    · exact ih (d + 1) r h

/-- `pymax` of a non-empty list is attained and is an upper bound. -/
theorem pymax_spec : ∀ l : List ℚ, l ≠ [] → pymax l ∈ l ∧ ∀ x ∈ l, x ≤ pymax l := by
  intro l
  induction l with
  | nil => intro h; exact absurd rfl h
  | cons a rest ih =>
    intro _
    cases rest with
    | nil =>
      constructor
      · simp [pymax]
      · intro x hx
        simp at hx
        simp [pymax, hx]
    | cons b rest2 =>
      obtain ⟨hmem, hub⟩ := ih (by simp)
      have hpm : pymax (a :: b :: rest2) = max a (pymax (b :: rest2)) := rfl
      constructor
      · rw [hpm]
        rcases max_choice a (pymax (b :: rest2)) with h | h
        · rw [h]; simp
        · rw [h]
          exact List.mem_cons_of_mem a hmem
      · intro x hx
        rw [hpm]
        rcases List.mem_cons.mp hx with h | h
        · rw [h]; exact le_max_left _ _
        · exact le_trans (hub x h) (le_max_right _ _)

end Xalpha

namespace Xalpha

/-- The settlement date of the buy/sell block never precedes the processed
date, provided the instrument's quotes settle no earlier than the query date
(the collaborator contract of spec §6). -/
theorem tradePart_rdate (aim : Instrument) (st : Status) (cft : List (ℕ × ℚ × ℚ))
    (rem0 : Registry) (date : ℕ)
    (hb : ∀ v d, d ≤ (aim.shengou v d).1)
    (hs : ∀ v d r, d ≤ (aim.shuhui v d r).1)
    {rd : ℕ} {dc ds : ℚ} {rem1 : Registry} {lab : ℕ}
    (h : tradePart aim st cft rem0 date = .ok rd dc ds rem1 lab) : date ≤ rd := by
  unfold tradePart at h
  simp only [] at h
  split at h
  · split at h
    · cases h; exact hb _ _
    · split at h
      · split at h
        · cases h; exact hs _ _ _
        · cases h
      · split at h
        · split at h
          · cases h; exact hs _ _ _
          · cases h
        · cases h; exact le_refl _
  · cases h; exact le_refl _

/-- Per-step invariant: ledger and snapshot tables are date-aligned and the
shared date column is strictly increasing. -/
def tdInv (s : TdState) : Prop :=
  s.cftable.map Prod.fst = s.remtable.map Prod.fst ∧
  (s.cftable.map Prod.fst).Chain' (· < ·)

theorem addrow_inv (aim : Instrument) (st : Status) (y : ℕ)
    (hb : ∀ v d, d ≤ (aim.shengou v d).1)
    (hs : ∀ v d r, d ≤ (aim.shuhui v d r).1)
    {s s' : TdState} (h : addrow aim st y s = .ok s') (hi : tdInv s) : tdInv s' := by
  unfold addrow at h
  split at h
  · rename_i hlast
    have hnil : s.cftable = [] := by
      cases hcf : s.cftable with
      | nil => rfl
      | cons a l => rw [hcf] at hlast; simp [List.getLast?_concat] at hlast
    split at h
    · cases h
    · split at h
      · cases h
        obtain ⟨ha, _⟩ := hi
        have hremnil : s.remtable = [] := by
          rw [hnil] at ha
          exact List.map_eq_nil_iff.mp ha.symm
        constructor
        · simp [hnil, hremnil]
        · simp [hnil]
      · cases h
  · rename_i last hlast
    split at h
    · cases h
    · rename_i date hnd
      split at h
      · cases h
      · rename_i rd dc ds rem1 lab htp
        split at h
        · cases h
        · rename_i dc2 ds2 rem2 hdp
          cases h
          obtain ⟨ha, hc⟩ := hi
          have hd1 : last.1 + 1 ≤ date :=
            nextDateAux_ge aim st _ _ _ hnd
          have hd2 : date ≤ rd :=
            tradePart_rdate aim st s.cftable (lastRem s) date hb hs htp
          constructor
          · simp only [List.map_append, List.map_cons, List.map_nil, ha]
          · simp only [List.map_append, List.map_cons, List.map_nil]
            apply List.Chain'.append hc (by simp)
            intro x hx y hy
            have hlx : (s.cftable.map Prod.fst).getLast? = some last.1 := by
              rw [List.getLast?_map, hlast]
              rfl
            rw [hlx] at hx
            simp only [Option.mem_def, Option.some_inj] at hx
            simp only [List.head?_cons, Option.mem_def, Option.some_inj] at hy
            subst hx
            subst hy
            omega

theorem arrange_inv (aim : Instrument) (st : Status) (y : ℕ)
    (hb : ∀ v d, d ≤ (aim.shengou v d).1)
    (hs : ∀ v d r, d ≤ (aim.shuhui v d r).1) :
    ∀ fuel (s s' : TdState), tdInv s → arrange aim st y fuel s = .ok s' → tdInv s' := by
  intro fuel
  induction fuel with
  | zero =>
    intro s s' hi h
    unfold arrange at h
    cases h
    exact hi
  | succ n ih =>
    intro s s' hi h
    unfold arrange at h
    split at h
    · rename_i s1 ha
      exact ih s1 s' (addrow_inv aim st y hb hs ha hi) h
    · cases h; exact hi
    · cases h

end Xalpha

namespace Xalpha

/-- Echo instrument used as concrete input in witnesses: a buy of value `v`
settles the same day at cash `-v` for `v` shares (unit price), a redemption of
`q` shares settles the same day at cash `q` for share delta `-q`; no corporate
actions, no lock dates. -/
def aimEcho : Instrument where
  shengou := fun v d => (d, -v, v)
  shuhui := fun q d _ => (d, q, -q)
  specialdate := []
  zhesuandate := []
  comment := fun _ => none
  netvalue := fun _ => 1

/-- C7: after every replay step the ledger (cftable) and the snapshot table
(remtable) have equal length, carry the same date in each row, and their date
column is strictly increasing with no duplicates, for every instruction
sequence, provided the instrument's quotes settle no earlier than the query
date (the collaborator contract). -/
theorem C7_tables_aligned_strict (aim : Instrument) (st : Status) (y : ℕ)
    (hb : ∀ v d, d ≤ (aim.shengou v d).1)
    (hs : ∀ v d r, d ≤ (aim.shuhui v d r).1)
    (fuel : ℕ) (s' : TdState)
    (h : arrange aim st y fuel ⟨[], []⟩ = .ok s') :
    s'.cftable.length = s'.remtable.length ∧
    s'.cftable.map Prod.fst = s'.remtable.map Prod.fst ∧
    (s'.cftable.map Prod.fst).Chain' (· < ·) ∧
    (s'.remtable.map Prod.fst).Chain' (· < ·) ∧
    (s'.cftable.map Prod.fst).Nodup ∧
    (s'.remtable.map Prod.fst).Nodup := by
  have hinv : tdInv s' :=
    arrange_inv aim st y hb hs fuel ⟨[], []⟩ s' ⟨rfl, by simp⟩ h
  obtain ⟨ha, hc⟩ := hinv
  have hlen : s'.cftable.length = s'.remtable.length := by
    have := congrArg List.length ha
    simpa using this
  have hcr : (s'.remtable.map Prod.fst).Chain' (· < ·) := by rw [← ha]; exact hc
  have hnodup : (s'.cftable.map Prod.fst).Nodup := by
    have hp := List.chain'_iff_pairwise.mp hc
    exact List.Pairwise.imp (fun hlt => Nat.ne_of_lt hlt) hp
  have hnodup2 : (s'.remtable.map Prod.fst).Nodup := by rw [← ha]; exact hnodup
  exact ⟨hlen, ha, hc, hcr, hnodup, hnodup2⟩

theorem C7_tables_aligned_strict_witness :
    (TdState.mk [(1, -100, 100)] [(1, [(1, 100)])]).cftable.length =
      (TdState.mk [(1, -100, 100)] [(1, [(1, 100)])]).remtable.length ∧
    (TdState.mk [(1, -100, 100)] [(1, [(1, 100)])]).cftable.map Prod.fst =
      (TdState.mk [(1, -100, 100)] [(1, [(1, 100)])]).remtable.map Prod.fst ∧
    ((TdState.mk [(1, -100, 100)] [(1, [(1, 100)])]).cftable.map Prod.fst).Chain' (· < ·) ∧
    ((TdState.mk [(1, -100, 100)] [(1, [(1, 100)])]).remtable.map Prod.fst).Chain' (· < ·) ∧
    ((TdState.mk [(1, -100, 100)] [(1, [(1, 100)])]).cftable.map Prod.fst).Nodup ∧
    ((TdState.mk [(1, -100, 100)] [(1, [(1, 100)])]).remtable.map Prod.fst).Nodup := by
  apply C7_tables_aligned_strict aimEcho [(1, (100 : ℚ))] 3
    (fun v d => le_refl d) (fun v d r => le_refl d) 2
  simp [arrange, addrow, firstNonzero, aimEcho, rm.buy, nextDate, nextDateAux,
    hasInstr, tradePart, divPart, lastRem]

/-- C8: if the first nonzero instruction value is negative (a sell before any
buy), the replay aborts with the fatal error of line 160 of `trade.py`,
appending no ledger entry and no snapshot (the state starts and stays empty,
the lot registry starts empty). -/
theorem C8_sell_before_buy_fatal (aim : Instrument) (st : Status) (y : ℕ)
    (d : ℕ) (v : ℚ) (n : ℕ)
    (hfz : firstNonzero st = some (d, v)) (hneg : v < 0) :
    addrow aim st y ⟨[], []⟩ = .fatal "You cannot sell first when you never buy" ∧
    arrange aim st y (n + 1) ⟨[], []⟩ =
      .err "You cannot sell first when you never buy" := by
  have h1 : addrow aim st y ⟨[], []⟩ =
      .fatal "You cannot sell first when you never buy" := by
    unfold addrow
    simp [hfz, show ¬(0 < v) by linarith]
  refine ⟨h1, ?_⟩
  unfold arrange
  rw [h1]

theorem C8_sell_before_buy_fatal_witness :
    addrow aimEcho [(2, -5)] 3 ⟨[], []⟩ =
      .fatal "You cannot sell first when you never buy" ∧
    arrange aimEcho [(2, -5)] 3 (0 + 1) ⟨[], []⟩ =
      .err "You cannot sell first when you never buy" :=
  C8_sell_before_buy_fatal aimEcho [(2, -5)] 3 2 (-5) 0
    (by norm_num [firstNonzero]) (by norm_num)

end Xalpha

namespace Xalpha

/-- C1: on a trading day whose raw instruction value `v` lies in the ratio
band `-0.005 ≤ v < 0` (`trade.py` lines 194-199), the engine requests
redemption of `currentTotal × (-v / 0.005)` shares; in particular `v = -0.005`
requests exactly 100% of the current balance and leaves the registry empty,
and `v = -0.0025` requests exactly 50%.  Hypotheses: the date carries an
instruction and is not a lock date; the quote returns the requested share
count negated (collaborator contract); the registry total matches the ledger's
running share total (prefix-consistency); lots are positive. -/
theorem C1_ratio_redemption (aim : Instrument) (st : Status)
    (cft : List (ℕ × ℚ × ℚ)) (rem0 : Registry) (date rd : ℕ) (dc v : ℚ)
    (hrec : ∃ r ∈ st, r.1 = date) (hz : date ∉ aim.zhesuandate)
    (hv : statusValue st date = v)
    (hv1 : -(0.005 : ℚ) ≤ v) (hv2 : v < 0)
    (hq : aim.shuhui (sumShare cft * (-v / (0.005 : ℚ))) date rem0 =
      (rd, dc, -(sumShare cft * (-v / (0.005 : ℚ)))))
    (htot : totalShares rem0 = sumShare cft)
    (hpos : ∀ l ∈ rem0, 0 < l.2) :
    tradePart aim st cft rem0 date =
      .ok rd dc (-(sumShare cft * (-v / (0.005 : ℚ))))
        ((rm.sellFIFO rem0 (sumShare cft * (-v / (0.005 : ℚ)))).2) 0 ∧
    (v = -(0.005 : ℚ) →
      sumShare cft * (-v / (0.005 : ℚ)) = totalShares rem0 ∧
      (rm.sellFIFO rem0 (sumShare cft * (-v / (0.005 : ℚ)))).2 = []) ∧
    (v = -(0.0025 : ℚ) →
      sumShare cft * (-v / (0.005 : ℚ)) = totalShares rem0 / 2) := by
  have hdec : decode (statusValue st date) = ⟨0, v⟩ := by
    rw [hv]; exact decode_neg hv2
  have hratio_le : -v / (0.005 : ℚ) ≤ 1 := by
    rw [div_le_one (by norm_num)]
    linarith
  have htotnn : 0 ≤ totalShares rem0 := totalShares_nonneg hpos
  have hreq_le : sumShare cft * (-v / (0.005 : ℚ)) ≤ totalShares rem0 := by
    rw [← htot]
    calc totalShares rem0 * (-v / (0.005 : ℚ)) ≤ totalShares rem0 * 1 :=
          mul_le_mul_of_nonneg_left hratio_le htotnn
      _ = totalShares rem0 := mul_one _
  refine ⟨?_, ?_, ?_⟩
  · unfold tradePart
    rw [if_pos ⟨hrec, hz⟩, hdec]
    rw [if_neg (by norm_num; linarith), if_neg (by norm_num; linarith),
      if_pos ⟨hv1, hv2⟩]
    rw [hq]
    simp only [neg_neg]
    unfold rm.sell
    rw [if_neg (not_lt.mpr hreq_le)]
  · intro h5
    subst h5
    have h1 : -(-(0.005 : ℚ)) / (0.005 : ℚ) = 1 := by norm_num
    rw [h1, mul_one, ← htot]
    exact ⟨rfl, by rw [(sellFIFO_total hpos : rm.sellFIFO rem0 (totalShares rem0) = (rem0, []))]⟩
  · intro h25
    subst h25
    have h1 : -(-(0.0025 : ℚ)) / (0.005 : ℚ) = 1 / 2 := by norm_num
    rw [h1, ← htot]
    ring

theorem C1_ratio_redemption_witness :
    tradePart aimEcho [(5, -(0.005 : ℚ))] [(1, -100, 100)] [(1, 100)] 5 =
      .ok 5 (sumShare [(1, -100, 100)] * (-(-(0.005 : ℚ)) / (0.005 : ℚ)))
        (-(sumShare [(1, -100, 100)] * (-(-(0.005 : ℚ)) / (0.005 : ℚ))))
        ((rm.sellFIFO [(1, 100)]
          (sumShare [(1, -100, 100)] * (-(-(0.005 : ℚ)) / (0.005 : ℚ)))).2) 0 ∧
    (-(0.005 : ℚ) = -(0.005 : ℚ) →
      sumShare [(1, -100, 100)] * (-(-(0.005 : ℚ)) / (0.005 : ℚ)) =
        totalShares [(1, 100)] ∧
      (rm.sellFIFO [(1, 100)]
        (sumShare [(1, -100, 100)] * (-(-(0.005 : ℚ)) / (0.005 : ℚ)))).2 = []) ∧
    (-(0.005 : ℚ) = -(0.0025 : ℚ) →
      sumShare [(1, -100, 100)] * (-(-(0.005 : ℚ)) / (0.005 : ℚ)) =
        totalShares [(1, 100)] / 2) :=
  C1_ratio_redemption aimEcho [(5, -(0.005 : ℚ))] [(1, -100, 100)] [(1, 100)] 5 5
    (sumShare [(1, -100, 100)] * (-(-(0.005 : ℚ)) / (0.005 : ℚ))) (-(0.005 : ℚ))
    ⟨(5, -(0.005 : ℚ)), by simp, rfl⟩ (List.not_mem_nil 5)
    (by simp [statusValue]) (by norm_num) (by norm_num)
    rfl rfl (by norm_num)

end Xalpha

namespace Xalpha

/-- C2 counterexample: the claim says every `v ≤ -0.005` is treated as a direct
share count (`-v` shares requested).  At the boundary `v = -0.005` the code's
share-count branch `value < -0.005` (line 191, strict) is not taken and the
ratio branch fires instead: with a current balance of 100 shares the engine
requests the full 100 shares (the echo instrument reports the requested amount
back as the cash field), not `-v = 0.005` shares. -/
theorem C2_share_count_boundary_cex :
    statusValue [(5, -(0.005 : ℚ))] 5 = -(0.005 : ℚ) ∧
    tradePart aimEcho [(5, -(0.005 : ℚ))] [(1, -100, 100)] [(1, 100)] 5 =
      .ok 5 (100 : ℚ) (-100 : ℚ) [] 0 ∧
    (100 : ℚ) ≠ -(-(0.005 : ℚ)) := by
  have hdec : decode (-(1 / 200 : ℚ)) = ⟨0, -(1 / 200 : ℚ)⟩ := decode_neg (by norm_num)
  refine ⟨by simp [statusValue], ?_, by norm_num⟩
  norm_num [tradePart, statusValue, hdec, aimEcho, rm.sell, rm.sellFIFO,
    totalShares, sumShare]

end Xalpha

namespace Xalpha

/-- C2 amended: for every instruction value strictly below `-0.005` on a
trading day, the engine interprets the value as a direct share count and
requests redemption of exactly `-v` shares (line 191-193 of `trade.py`); at
exactly `-0.005` the ratio branch applies instead.  Hypotheses: the date
carries an instruction and is not a lock date; the quote is `(rd, dc, ds)`;
the registry holds enough shares for the quoted share delta. -/
theorem C2_share_count_redemption (aim : Instrument) (st : Status)
    (cft : List (ℕ × ℚ × ℚ)) (rem0 : Registry) (date rd : ℕ) (dc ds v : ℚ)
    (hrec : ∃ r ∈ st, r.1 = date) (hz : date ∉ aim.zhesuandate)
    (hv : statusValue st date = v) (hvlt : v < -(0.005 : ℚ))
    (hq : aim.shuhui (-v) date rem0 = (rd, dc, ds))
    (hsell : ¬(totalShares rem0 < -ds)) :
    tradePart aim st cft rem0 date = .ok rd dc ds ((rm.sellFIFO rem0 (-ds)).2) 0 := by
  have hneg : v < 0 := by
    have : -(0.005 : ℚ) < 0 := by norm_num
    linarith
  have hdec : decode (statusValue st date) = ⟨0, v⟩ := by
    rw [hv]; exact decode_neg hneg
  unfold tradePart
  rw [if_pos ⟨hrec, hz⟩, hdec]
  rw [if_neg (by norm_num; linarith), if_pos (by exact hvlt)]
  rw [hq]
  simp [rm.sell, hsell]

theorem C2_share_count_redemption_witness :
    tradePart aimEcho [(5, -7)] [(1, -100, 100)] [(1, 100)] 5 =
      .ok 5 7 (-7) ((rm.sellFIFO [(1, 100)] (-(-7 : ℚ))).2) 0 :=
  C2_share_count_redemption aimEcho [(5, -7)] [(1, -100, 100)] [(1, 100)] 5 5
    7 (-7) (-7)
    ⟨(5, (-7 : ℚ)), by simp, rfl⟩ (List.not_mem_nil 5)
    (by simp [statusValue]) (by norm_num)
    (by norm_num [aimEcho]) (by norm_num [totalShares])

end Xalpha

namespace Xalpha

/-- C3: on a corporate-action day whose action value `c` is a positive
per-share dividend (`trade.py` lines 213-224): on a non-reinvestment day
(`label = 0`) the distribution credits cash `currentTotal × c` with zero share
change and an unchanged registry; on a reinvestment day (`label = 1`, the
marker decoded from the instruction) it instead credits shares
`currentTotal × c / netvalue(date)` with a new lot appended and no dividend
cash; and no branch of the corporate-action block ever credits both cash and
shares for the same distribution. -/
theorem C3_dividend_cash_xor_reinvest (aim : Instrument) (cft : List (ℕ × ℚ × ℚ))
    (rem : Registry) (date : ℕ) (c : ℚ)
    (hsp : date ∈ aim.specialdate) (hc : aim.comment date = some c) (hcp : 0 < c) :
    divPart aim cft rem 0 date = .ok (sumShare cft * c) 0 rem ∧
    divPart aim cft rem 1 date =
      .ok 0 (sumShare cft * (c / aim.netvalue date))
        (rem ++ [(date, sumShare cft * (c / aim.netvalue date))]) ∧
    (∀ label dc2 ds2 rem2, divPart aim cft rem label date = .ok dc2 ds2 rem2 →
      dc2 = 0 ∨ ds2 = 0) := by
  refine ⟨?_, ?_, ?_⟩
  · simp [divPart, hsp, hc, hcp, not_lt.mpr (le_of_lt hcp), myround, rm.copy]
  · simp [divPart, hsp, hc, hcp, not_lt.mpr (le_of_lt hcp), myround, rm.buy]
  · intro label dc2 ds2 rem2 h
    unfold divPart at h
    rw [if_pos hsp, hc] at h
    dsimp only [] at h
    split_ifs at h with h1 h2 h3
    all_goals
      first
        | (cases h; exact Or.inl rfl)
        | (cases h; exact Or.inr rfl)

/-- Dividend instrument used as concrete input in witnesses: day 7 carries a
per-share dividend of 2 with net value 4. -/
def aimDiv : Instrument where
  shengou := fun v d => (d, -v, v)
  shuhui := fun q d _ => (d, q, -q)
  specialdate := [7]
  zhesuandate := []
  comment := fun _ => some 2
  netvalue := fun _ => 4

theorem C3_dividend_cash_xor_reinvest_witness :
    divPart aimDiv [(1, -100, 100)] [(1, 100)] 0 7 =
      .ok (sumShare [(1, -100, 100)] * 2) 0 [(1, 100)] ∧
    divPart aimDiv [(1, -100, 100)] [(1, 100)] 1 7 =
      .ok 0 (sumShare [(1, -100, 100)] * (2 / aimDiv.netvalue 7))
        ([(1, 100)] ++ [(7, sumShare [(1, -100, 100)] * (2 / aimDiv.netvalue 7))]) ∧
    (∀ label dc2 ds2 rem2,
      divPart aimDiv [(1, -100, 100)] [(1, 100)] label 7 = .ok dc2 ds2 rem2 →
      dc2 = 0 ∨ ds2 = 0) :=
  C3_dividend_cash_xor_reinvest aimDiv [(1, -100, 100)] [(1, 100)] 7 2
    (by simp [aimDiv]) rfl (by norm_num)

end Xalpha

namespace Xalpha

/-- Lock-date instrument used as concrete input: day 5 is a lock
(conversion-freeze) date carrying no corporate action. -/
def aimLock : Instrument where
  shengou := fun v d => (d, -v, v)
  shuhui := fun q d _ => (d, q, -q)
  specialdate := []
  zhesuandate := [5]
  comment := fun _ => none
  netvalue := fun _ => 1

/-- C4 counterexample: day 5 is a lock date with no corporate action but with
the nonzero instruction 7; the claim says the day is skipped entirely (no
ledger entry, no snapshot), yet the replay appends the zero entry `(5, 0, 0)`
and a snapshot row for day 5 (the scan stops on the nonzero instruction, the
buy/sell block is suppressed by the lock-date guard of line 179, and lines
228-230 append unconditionally). -/
theorem C4_lock_date_zero_entry_cex :
    (5 ∈ aimLock.zhesuandate ∧ 5 ∉ aimLock.specialdate ∧
      statusValue [(1, 100), (5, 7)] 5 = 7 ∧ (7 : ℚ) ≠ 0) ∧
    arrange aimLock [(1, 100), (5, 7)] 10 3 ⟨[], []⟩ =
      .ok ⟨[(1, -100, 100), (5, 0, 0)], [(1, [(1, 100)]), (5, [(1, 100)])]⟩ := by
  constructor
  · exact ⟨by simp [aimLock], by simp [aimLock], by simp [statusValue], by norm_num⟩
  · simp [arrange, addrow, firstNonzero, aimLock, rm.buy, nextDate, nextDateAux,
      hasInstr, tradePart, divPart, lastRem]

/-- C4 amended: a day the scan selects always carries a corporate action or a
nonzero instruction, so a lock date with neither is never visited; but when a
nonzero instruction falls on a lock date carrying no corporate action, the
replay records a ledger entry with zero cash and zero shares (and an unchanged
registry snapshot) for that day instead of skipping it. -/
theorem C4_lock_date_skip_amended (aim : Instrument) (st : Status) (y : ℕ)
    (s : TdState) (last : ℕ × ℚ × ℚ) (date : ℕ)
    (hlast : s.cftable.getLast? = some last)
    (hnd : nextDate aim st y (last.1 + 1) = some date)
    (hz : date ∈ aim.zhesuandate) (hsp : date ∉ aim.specialdate) :
    (∀ g d r, nextDateAux aim st g d = some r →
      r ∈ aim.specialdate ∨ hasInstr st r) ∧
    addrow aim st y s =
      .ok ⟨s.cftable ++ [(date, 0, 0)], s.remtable ++ [(date, lastRem s)]⟩ := by
  constructor
  · exact nextDateAux_stop aim st
  · have htp : tradePart aim st s.cftable (lastRem s) date =
        .ok date 0 0 (lastRem s) 0 := by
      unfold tradePart
      rw [if_neg (fun hcon => hcon.2 hz)]
    have hdp : divPart aim s.cftable (lastRem s) 0 date = .ok 0 0 (lastRem s) := by
      unfold divPart
      rw [if_neg hsp]
    simp [addrow, hlast, hnd, htp, hdp]

theorem C4_lock_date_skip_amended_witness :
    (∀ g d r, nextDateAux aimLock [(1, 100), (5, 7)] g d = some r →
      r ∈ aimLock.specialdate ∨ hasInstr [(1, 100), (5, 7)] r) ∧
    addrow aimLock [(1, 100), (5, 7)] 10 ⟨[(1, -100, 100)], [(1, [(1, 100)])]⟩ =
      .ok ⟨[(1, -100, 100)] ++ [(5, 0, 0)],
        [(1, [(1, 100)])] ++
          [(5, lastRem ⟨[(1, -100, 100)], [(1, [(1, 100)])]⟩)]⟩ :=
  C4_lock_date_skip_amended aimLock [(1, 100), (5, 7)] 10
    ⟨[(1, -100, 100)], [(1, [(1, 100)])]⟩ (1, -100, 100) 5 rfl
    (by simp [nextDate, nextDateAux, hasInstr, aimLock]) (by simp [aimLock])
    (by simp [aimLock])

end Xalpha

namespace Xalpha

/-- C9: on a corporate-action day whose recorded action value is classifiable
neither as a split (negative) nor as a dividend (positive) — a non-float
comment (`none`) or the float `0` — the replay aborts with a fatal error
(`comments not recoginized` at line 226, resp. Python's unbound-local failure
at line 223) instead of skipping the day or appending an entry, and `_arrange`
propagates the failure. -/
theorem C9_unrecognized_action_fatal (aim : Instrument) (st : Status) (y : ℕ)
    (s : TdState) (last : ℕ × ℚ × ℚ) (date rd : ℕ) (dc ds : ℚ)
    (rem1 : Registry) (lab n : ℕ)
    (hlast : s.cftable.getLast? = some last)
    (hnd : nextDate aim st y (last.1 + 1) = some date)
    (hsp : date ∈ aim.specialdate)
    (hcm : aim.comment date = none ∨ aim.comment date = some 0)
    (htp : tradePart aim st s.cftable (lastRem s) date = .ok rd dc ds rem1 lab) :
    ∃ m, divPart aim s.cftable rem1 lab date = .err m ∧
      addrow aim st y s = .fatal m ∧
      arrange aim st y (n + 1) s = .err m := by
  have hdp : ∃ m, divPart aim s.cftable rem1 lab date = .err m := by
    rcases hcm with hc | hc
    · exact ⟨"comments not recoginized", by unfold divPart; rw [if_pos hsp, hc]⟩
    · refine ⟨"local variable dcash2 referenced before assignment", ?_⟩
      unfold divPart
      rw [if_pos hsp, hc]
      dsimp only []
      rw [if_neg (lt_irrefl 0), if_neg (fun hcon => absurd hcon.1 (lt_irrefl 0)),
        if_neg (fun hcon => absurd hcon.1 (lt_irrefl 0))]
  obtain ⟨m, hm⟩ := hdp
  have haddrow : addrow aim st y s = .fatal m := by
    simp [addrow, hlast, hnd, htp, hm]
  refine ⟨m, hm, haddrow, ?_⟩
  unfold arrange
  rw [haddrow]

/-- Zero-comment instrument: day 9 is a corporate-action day whose recorded
action value is the float `0`, classifiable neither as split nor dividend. -/
def aimZero : Instrument where
  shengou := fun v d => (d, -v, v)
  shuhui := fun q d _ => (d, q, -q)
  specialdate := [9]
  zhesuandate := []
  comment := fun _ => some 0
  netvalue := fun _ => 1

theorem C9_unrecognized_action_fatal_witness :
    ∃ m, divPart aimZero [(1, -100, 100)] [(1, 100)] 0 9 = .err m ∧
      addrow aimZero [(1, 100)] 10 ⟨[(1, -100, 100)], [(1, [(1, 100)])]⟩ = .fatal m ∧
      arrange aimZero [(1, 100)] 10 (0 + 1)
        ⟨[(1, -100, 100)], [(1, [(1, 100)])]⟩ = .err m :=
  C9_unrecognized_action_fatal aimZero [(1, 100)] 10
    ⟨[(1, -100, 100)], [(1, [(1, 100)])]⟩ (1, -100, 100) 9 9 0 0 [(1, 100)] 0 0
    rfl (by simp [nextDate, nextDateAux, hasInstr, aimZero])
    (by simp [aimZero]) (Or.inr rfl)
    (by simp [tradePart, statusValue, aimZero, lastRem])

end Xalpha

namespace Xalpha

/-- C5: for a non-empty ledger, `bottleneck` is attained at some non-empty
prefix's negated cumulative cash sum and bounds all of them — i.e. it is the
maximum over all non-empty prefixes of the capital contributed net of capital
returned; an empty ledger yields 0 and the example ledger with cash column
`[-100, -50, +30]` yields 150. -/
theorem C5_bottleneck_spec (cft : List (ℕ × ℚ × ℚ)) (hne : cft ≠ []) :
    (∃ i, i < cft.length ∧ bottleneck cft = -(sumCash (cft.take (i + 1)))) ∧
    (∀ i, i < cft.length → -(sumCash (cft.take (i + 1))) ≤ bottleneck cft) ∧
    bottleneck [] = 0 ∧
    bottleneck [(1, -100, 0), (2, -50, 0), (3, 30, 0)] = 150 := by
  have hb : bottleneck cft =
      pymax ((List.range cft.length).map (fun i => -(sumCash (cft.take (i + 1))))) := by
    unfold bottleneck
    rw [if_neg hne]
    rfl
  have hlen : cft.length ≠ 0 := fun h => hne (List.length_eq_zero.mp h)
  have hlne : (List.range cft.length).map
      (fun i => -(sumCash (cft.take (i + 1)))) ≠ [] := by
    simp [List.map_eq_nil_iff, List.range_eq_nil, hlen]
  obtain ⟨hmem, hub⟩ := pymax_spec _ hlne
  refine ⟨?_, ?_, by simp [bottleneck], ?_⟩
  · rw [hb]
    rcases List.mem_map.mp hmem with ⟨i, hir, hieq⟩
    exact ⟨i, List.mem_range.mp hir, hieq.symm⟩
  · intro i hi
    rw [hb]
    exact hub _ (List.mem_map.mpr ⟨i, List.mem_range.mpr hi, rfl⟩)
  · have h1 : bottleneck [(1, -100, 0), (2, -50, 0), (3, 30, 0)] =
        pymax [-(-100 + 0 : ℚ), -(-100 + (-50 + 0) : ℚ),
          -(-100 + (-50 + (30 + 0)) : ℚ)] := by
      unfold bottleneck
      rw [if_neg (by simp)]
      rfl
    rw [h1]
    norm_num [pymax, max_def]

theorem C5_bottleneck_spec_witness :
    (∃ i, i < ([(1, -7, 0)] : List (ℕ × ℚ × ℚ)).length ∧
      bottleneck [(1, -7, 0)] = -(sumCash (([(1, -7, 0)] : List (ℕ × ℚ × ℚ)).take (i + 1)))) ∧
    (∀ i, i < ([(1, -7, 0)] : List (ℕ × ℚ × ℚ)).length →
      -(sumCash (([(1, -7, 0)] : List (ℕ × ℚ × ℚ)).take (i + 1))) ≤ bottleneck [(1, -7, 0)]) ∧
    bottleneck [] = 0 ∧
    bottleneck [(1, -100, 0), (2, -50, 0), (3, 30, 0)] = 150 :=
  C5_bottleneck_spec [(1, -7, 0)] (by simp)

end Xalpha

namespace Xalpha

/-- C6 counterexample: for the one-row ledger `[(1, 0, 0)]` and end date 1 the
elapsed days are `0 ≤ 0`, so the claim says `turnoverrate` returns 0 without
failing; but the code divides by `bottleneck = 0` *before* the elapsed-days
check (line 63 precedes line 64), raising `ZeroDivisionError` (modelled as
`none`). -/
theorem C6_turnoverrate_zero_bottleneck_cex :
    ((1 : ℤ) - ((1 : ℕ) : ℤ) ≤ 0) ∧ turnoverrate [(1, 0, 0)] 1 = none := by
  refine ⟨by norm_num, ?_⟩
  have hb : bottleneck [(1, 0, 0)] = 0 := by
    have h1 : bottleneck [(1, 0, 0)] = pymax [-(0 + 0 : ℚ)] := by
      unfold bottleneck
      rw [if_neg (by simp)]
      rfl
    rw [h1]
    norm_num [pymax]
  have h2 : turnoverrate [(1, 0, 0)] 1 = none := by
    unfold turnoverrate
    rw [if_neg (show ¬(([(1, 0, 0)] : List (ℕ × ℚ × ℚ)) = []) by simp)]
    dsimp only []
    rw [if_pos hb]
  exact h2

/-- C6 amended: `turnoverrate` returns 0 on an empty ledger; on a non-empty
ledger it fails with a division error when `bottleneck = 0` (even when the
elapsed days are non-positive); otherwise it returns 0 for non-positive
elapsed days and `sum(|cash|) / (2 × bottleneck) × 365 / elapsedDays` for
positive elapsed days. -/
theorem C6_turnoverrate_formula (cft : List (ℕ × ℚ × ℚ)) (endd : ℕ) :
    (cft = [] → turnoverrate cft endd = some 0) ∧
    (cft ≠ [] → bottleneck cft = 0 → turnoverrate cft endd = none) ∧
    (cft ≠ [] → bottleneck cft ≠ 0 →
      (endd : ℤ) - ((cft.headD (0, 0, 0)).1 : ℤ) ≤ 0 →
      turnoverrate cft endd = some 0) ∧
    (cft ≠ [] → bottleneck cft ≠ 0 →
      0 < (endd : ℤ) - ((cft.headD (0, 0, 0)).1 : ℤ) →
      turnoverrate cft endd =
        some (sumAbsCash cft / (2 * bottleneck cft) * 365 /
          (((endd : ℤ) - ((cft.headD (0, 0, 0)).1 : ℤ) : ℤ) : ℚ))) := by
  refine ⟨?_, ?_, ?_, ?_⟩
  · intro h
    simp [turnoverrate, h]
  · intro h hb
    simp [turnoverrate, h, hb]
  · intro h hb hd
    simp only [turnoverrate, if_neg h, if_neg hb, if_pos hd]
  · intro h hb hd
    simp only [turnoverrate, if_neg h, if_neg hb, if_neg (not_le.mpr hd)]
    congr 1
    rw [div_div, mul_comm (bottleneck cft) 2]

theorem C6_turnoverrate_formula_witness :
    (([(1, -100, 100)] : List (ℕ × ℚ × ℚ)) = [] →
      turnoverrate [(1, -100, 100)] 3 = some 0) ∧
    (([(1, -100, 100)] : List (ℕ × ℚ × ℚ)) ≠ [] →
      bottleneck [(1, -100, 100)] = 0 → turnoverrate [(1, -100, 100)] 3 = none) ∧
    (([(1, -100, 100)] : List (ℕ × ℚ × ℚ)) ≠ [] →
      bottleneck [(1, -100, 100)] ≠ 0 →
      (3 : ℤ) - ((([(1, -100, 100)] : List (ℕ × ℚ × ℚ)).headD (0, 0, 0)).1 : ℤ) ≤ 0 →
      turnoverrate [(1, -100, 100)] 3 = some 0) ∧
    (([(1, -100, 100)] : List (ℕ × ℚ × ℚ)) ≠ [] →
      bottleneck [(1, -100, 100)] ≠ 0 →
      0 < (3 : ℤ) - ((([(1, -100, 100)] : List (ℕ × ℚ × ℚ)).headD (0, 0, 0)).1 : ℤ) →
      turnoverrate [(1, -100, 100)] 3 =
        some (sumAbsCash [(1, -100, 100)] / (2 * bottleneck [(1, -100, 100)]) * 365 /
          (((3 : ℤ) - ((([(1, -100, 100)] : List (ℕ × ℚ × ℚ)).headD (0, 0, 0)).1 : ℤ) : ℤ) : ℚ))) :=
  C6_turnoverrate_formula [(1, -100, 100)] 3

/-- The truncation of a ledger at a date earlier than every entry is empty. -/
theorem partBefore_eq_nil {date : ℕ} :
    ∀ cft : List (ℕ × ℚ × ℚ), (∀ r ∈ cft, date < r.1) → partBefore cft date = [] := by
  intro cft
  induction cft with
  | nil => intro _; rfl
  | cons r rest ih =>
    intro h
    unfold partBefore
    rw [if_neg (by have := h r (by simp); omega)]
    exact ih (fun x hx => h x (by simp [hx]))

/-- C10: for a query date strictly earlier than every ledger entry (in
particular earlier than the first entry of a date-sorted ledger, so the
truncated ledger is empty), `briefdailyreport` returns the empty dict (`none`,
so a caller's `.get('currentshare', 0)` yields 0) and `dailyreport` returns a
report whose held-shares, current-value, total-contributed,
maximum-occupation, total-returned and total-gain fields are all 0; neither
computation fails. -/
theorem C10_report_before_first_entry (aim : Instrument)
    (cft : List (ℕ × ℚ × ℚ)) (date : ℕ) (hearly : ∀ r ∈ cft, date < r.1) :
    briefdailyreport aim cft date = none ∧
    ((briefdailyreport aim cft date).map BriefReport.currentshare).getD 0 = 0 ∧
    dailyreport aim cft date = ⟨aim.netvalue date, 0, 0, 0, 0, 0, 0⟩ := by
  have hpart : partBefore cft date = [] := partBefore_eq_nil cft hearly
  refine ⟨?_, ?_, ?_⟩
  · simp [briefdailyreport, hpart]
  · simp [briefdailyreport, hpart]
  · simp [dailyreport, hpart]

theorem C10_report_before_first_entry_witness :
    briefdailyreport aimEcho [(5, -100, 100)] 3 = none ∧
    ((briefdailyreport aimEcho [(5, -100, 100)] 3).map BriefReport.currentshare).getD 0 = 0 ∧
    dailyreport aimEcho [(5, -100, 100)] 3 = ⟨aimEcho.netvalue 3, 0, 0, 0, 0, 0, 0⟩ :=
  C10_report_before_first_entry aimEcho [(5, -100, 100)] 3 (by simp)

end Xalpha
